import Mathlib

/-!
Verification of the AI_Vtube repository's core components against its
specification: the text sanitizer (`src/text_utils.py`,
`remove_special_characters`), the LRU audio cache of the text-to-speech
engine (`src/packages/pailin-core/pailin_core/speech/tts.py`,
`TextToSpeech._update_cache` / `TextToSpeech.speak`), and the event bus
(`src/packages/pailin-core/pailin_core/events/event_bus.py`, `EventBus`).

Python dictionaries are embedded as association lists with unique keys
(insertion order preserved, as in CPython); the file system is embedded as
the list of paths that currently exist; `speak`'s network synthesis call and
audio playback are abstracted by a path-constructing parameter and a Boolean
playback-failure flag, the only ways their outcomes touch the cache state.
-/

namespace AIVtube

/-! Association-list model of a Python dict from str to str. -/

/-- Lookup `d[k]`: first binding of key `k`, if any.  CPython dicts have
unique keys, so "first" is exact on well-formed states. -/
def dictLookup : List (String × String) → String → Option String
  | [], _ => none
  | (a, b) :: t, k => if a = k then some b else dictLookup t k

/-- Membership test `k in d`. -/
def dictContains (d : List (String × String)) (k : String) : Bool :=
  (dictLookup d k).isSome

/-- Effect of `d.pop(k)` on the mapping: drop the first binding of `k`. -/
def dictErase : List (String × String) → String → List (String × String)
  | [], _ => []
  | (a, b) :: t, k => if a = k then t else (a, b) :: dictErase t k

/-- Assignment `d[k] = v`: update the binding in place if `k` is present (CPython keeps
its position), otherwise append it at the end (insertion order). -/
def dictInsert : List (String × String) → String → String → List (String × String)
  | [], k, v => [(k, v)]
  | (a, b) :: t, k, v => if a = k then (k, v) :: t else (a, b) :: dictInsert t k v

/-- The key list of a dict, in insertion order. -/
def dictKeys (d : List (String × String)) : List String :=
  d.map Prod.fst

/-! Text sanitizer, from `src/text_utils.py`. -/

/-- The `special_chars` list of `remove_special_characters`, transcribed
row by row from the source (duplicates included; a handful of ASCII
characters are written via their code points: `"` is 34, `'` is 39,
braces are 123 and 125, backtick is 96). -/
def specialChars : List Char :=
  ['!', '@', '#', '$', '%', '^', '&', '*', '(', ')',
   '-', '_', '+', '=', Char.ofNat 123, Char.ofNat 125, '[', ']', '|', '\\',
   ':', ';', Char.ofNat 34, Char.ofNat 39, '<', '>', ',', '.', '?', '/',
   '~', Char.ofNat 96, '•', '★', '☆', '♥', '♦', '♣', '♠', '♪',
   '♫', '☼', '►', '◄', '▲', '▼', '■', '□', '▪', '▫',
   '❤', '❥', '❦', '❧', '☜', '☞', '☝', '☟', '✌', '✍',
   '✎', '✏', '✐', '✑', '✒', '✓', '✔', '✕', '✖', '✗',
   '✘', '✙', '✚', '✛', '✜', '✝', '✞', '✟', '✠', '✡',
   '✢', '✣', '✤', '✥', '✦', '✧', '✩', '✪', '✫', '✬',
   '✭', '✮', '✯', '✰', '✱', '✲', '✳', '✴', '✵', '✶',
   '✷', '✸', '✹', '✺', '✻', '✼', '✽', '✾', '✿', '❀',
   '❁', '❂', '❃', '❄', '❅', '❆', '❇', '❈', '❉', '❊',
   '❋', '❌', '❍', '❎', '❏', '❐', '❑', '❒', '▬', '▭',
   '▮', '▯', '▰', '▱', '▶', '◀', '◢', '◣', '◤', '◥',
   '☀', '☁', '☂', '☃', '☄', '★', '☆', '☇', '☈', '☉',
   '☊', '☋', '☌', '☍', '☎', '☏', '☐', '☑', '☒', '☓',
   '☔', '☕', '☖', '☗', '☘', '☙', '☚', '☛', '☜', '☝',
   '☞', '☟', '☠', '☡', '☢', '☣', '☤', '☥', '☦', '☧',
   '☨', '☩', '☪', '☫', '☬', '☭', '☮', '☯', '☰', '☱',
   '☲', '☳', '☴', '☵', '☶', '☷', '☸', '☹', '☺', '☻',
   '☼', '☽', '☾', '☿', '♀', '♁', '♂', '♃', '♄', '♅',
   '♆', '♇', '♈', '♉', '♊', '♋', '♌', '♍', '♎', '♏',
   '♐', '♑', '♒', '♓', '♔', '♕', '♖', '♗', '♘', '♙',
   '♚', '♛', '♜', '♝', '♞', '♟', '♠', '♡', '♢', '♣',
   '♤', '♥', '♦', '♧', '♨', '♩', '♪', '♫', '♬', '♭',
   '♮', '♯', '♰', '♱', '♲', '♳', '♴', '♵', '♶', '♷',
   '♸', '♹', '♺', '♻', '♼', '♽', '♾', '♿']

/-- `remove_special_characters` from `src/text_utils.py`:
`text.translate(str.maketrans('', '', ''.join(special_chars)))`.
A translation table built with two empty arguments and a third deletion
string deletes exactly the characters of that string and maps every other
character to itself, i.e. it filters the character sequence. -/
def remove_special_characters (text : String) : String :=
  ⟨text.data.filter (fun c => !(specialChars.contains c))⟩

/-! The TextToSpeech LRU cache, from `pailin_core/speech/tts.py`.

State: the `cache` dict, the `cache_order` recency list (most recently used
at the tail) and the `cache_size` bound set in `__init__`.  The file system
is the list of currently existing paths, passed alongside the state. -/

structure TTSState where
  cache : List (String × String)
  cache_size : Nat
  cache_order : List String
deriving Repr, DecidableEq

/-- Constructor `TextToSpeech.__init__`: empty cache, empty recency list. -/
def initState (cache_size : Nat) : TTSState :=
  { cache := [], cache_size := cache_size, cache_order := [] }

/-- The pre-insertion phase of `TextToSpeech._update_cache`: on a refresh,
drop `text` from the recency list; otherwise, when the cache is at capacity
and the recency list is non-empty, pop its head `oldest_text`, pop its
mapping, and delete its backing file unless the file is missing or is the
very `file_path` being inserted (`os.remove` errors are swallowed). -/
def touchOrEvict (s : TTSState) (fs : List String) (text file_path : String) :
    TTSState × List String :=
  if dictContains s.cache text then
    ({ s with cache_order := s.cache_order.erase text }, fs)
  else
    match s.cache_order with
    | oldest_text :: rest =>
      if s.cache_size ≤ s.cache.length then
        let fs' :=
          match dictLookup s.cache oldest_text with
          | some oldest_path =>
            if oldest_path ∈ fs ∧ oldest_path ≠ file_path then fs.erase oldest_path
            else fs
          | none => fs
        ({ s with cache := dictErase s.cache oldest_text, cache_order := rest }, fs')
      else (s, fs)
    | [] => (s, fs)

/-- Method `TextToSpeech._update_cache(text, file_path)`: refresh or evict, then
`self.cache[text] = file_path; self.cache_order.append(text)`. -/
def updateCache (s : TTSState) (fs : List String) (text file_path : String) :
    TTSState × List String :=
  let p := touchOrEvict s fs text file_path
  ({ p.1 with
      cache := dictInsert p.1.cache text file_path,
      cache_order := p.1.cache_order ++ [text] }, p.2)

/-- The `except` branch at the end of `TextToSpeech.speak`: on a playback
error, `self.cache.pop(filtered_text, None)` and remove `filtered_text`
from `cache_order` if present.  The backing file is not touched. -/
def invalidateOnPlaybackFailure (s : TTSState) (text : String) : TTSState :=
  if dictContains s.cache text then
    { s with
        cache := dictErase s.cache text,
        cache_order :=
          if text ∈ s.cache_order then s.cache_order.erase text else s.cache_order }
  else s

/-- Outcome of one `speak` call: the new cache state and file system,
whether `edge_tts` synthesis was invoked (`communicate.save`), and the path
handed to the audio player. -/
structure SpeakResult where
  state : TTSState
  fs : List String
  synthCalled : Bool
  playedPath : String
deriving Repr, DecidableEq

/-- Method `TextToSpeech.speak(text)`.  Here `pathOf` abstracts the deterministic
temp-path construction from the md5 digest of the filtered text;
`playFails` abstracts whether the pygame playback block raises.  A cache
hit requires the key to be present *and* its file to exist; synthesis
(`communicate.save`) materialises the file at `pathOf filtered_text`. -/
def speak (pathOf : String → String) (playFails : Bool)
    (s : TTSState) (fs : List String) (text : String) : SpeakResult :=
  let filtered_text := remove_special_characters text
  let hitPath : Option String :=
    match dictLookup s.cache filtered_text with
    | some p => if p ∈ fs then some p else none
    | none => none
  let mid : SpeakResult :=
    match hitPath with
    | some temp_path =>
      { state :=
          { s with cache_order := s.cache_order.erase filtered_text ++ [filtered_text] }
        fs := fs, synthCalled := false, playedPath := temp_path }
    | none =>
      let temp_path := pathOf filtered_text
      let fsSaved := if temp_path ∈ fs then fs else fs ++ [temp_path]
      let p := updateCache s fsSaved filtered_text temp_path
      { state := p.1, fs := p.2, synthCalled := true, playedPath := temp_path }
  if playFails then
    { mid with state := invalidateOnPlaybackFailure mid.state filtered_text }
  else mid

/-- One operation against a `TextToSpeech` instance, for stating
whole-history invariants. -/
inductive TTSOp where
  | speakOp (text : String) (playFails : Bool)
  | updateOp (text file_path : String)
deriving Repr, DecidableEq

def runOp (pathOf : String → String) (s : TTSState) (fs : List String) :
    TTSOp → TTSState × List String
  | .speakOp text pf => let r := speak pathOf pf s fs text; (r.state, r.fs)
  | .updateOp text file_path => updateCache s fs text file_path

def runOps (pathOf : String → String) (s : TTSState) (fs : List String) :
    List TTSOp → TTSState × List String
  | [] => (s, fs)
  | op :: rest =>
    let p := runOp pathOf s fs op
    runOps pathOf p.1 p.2 rest

/-! The event bus, from `pailin_core/events/event_bus.py`.

Handlers are identified by an `id` (Python compares them by object
identity), carry a list of abstract sub-operations they perform when
invoked (covering deferred/async work, which `emit` awaits in place), and a
flag saying whether the call raises.  `emit` produces the totally ordered
trace of what happened; it returns a plain trace (never an exception), the
per-handler `try`/`except` being the `caught` entries. -/

inductive EventType where
  | NEW_MESSAGE | AI_RESPONSE | TTS_START | TTS_END | STT_START | STT_END
  | ERROR | MOOD_CHANGE | APP_START | APP_STOP
deriving Repr, DecidableEq

structure Handler where
  id : Nat
  effects : List Nat
  raises : Bool
deriving Repr, DecidableEq

/-- Access `self._handlers[event_type]` on a `defaultdict(list)`: the registered
list, or `[]` when the kind was never subscribed. -/
def getHandlers : List (EventType × List Handler) → EventType → List Handler
  | [], _ => []
  | (k, hs) :: t, et => if k = et then hs else getHandlers t et

def setHandlers : List (EventType × List Handler) → EventType → List Handler →
    List (EventType × List Handler)
  | [], et, hs => [(et, hs)]
  | (k, old) :: t, et, hs =>
    if k = et then (et, hs) :: t else (k, old) :: setHandlers t et hs

structure EventBus where
  handlers : List (EventType × List Handler)
  wildcard_handlers : List Handler
deriving Repr, DecidableEq

/-- Constructor `EventBus.__init__`. -/
def EventBus.empty : EventBus :=
  { handlers := [], wildcard_handlers := [] }

/-- Method `EventBus.on(event_type, handler)`: append only when not already
registered for that kind. -/
def EventBus.on (b : EventBus) (event_type : EventType) (handler : Handler) : EventBus :=
  if handler ∈ getHandlers b.handlers event_type then b
  else
    { b with
        handlers :=
          setHandlers b.handlers event_type
            (getHandlers b.handlers event_type ++ [handler]) }

/-- Method `EventBus.on_any(handler)`: append to the wildcard list when absent. -/
def EventBus.on_any (b : EventBus) (handler : Handler) : EventBus :=
  if handler ∈ b.wildcard_handlers then b
  else { b with wildcard_handlers := b.wildcard_handlers ++ [handler] }

/-- Entries of an emission trace: a handler starting with `(kind, **data)`,
one of its sub-operations completing, or its exception being caught and
logged by `emit`. -/
inductive TraceEntry where
  | invoked (hid : Nat) (kind : EventType) (data : String)
  | effect (hid : Nat) (op : Nat)
  | caught (hid : Nat)
deriving Repr, DecidableEq

/-- One `handler(event_type, **data)` call: it is entered, performs all its
sub-operations, and either returns or raises. -/
def callHandler (h : Handler) (event_type : EventType) (data : String) :
    List TraceEntry × Except String Unit :=
  (TraceEntry.invoked h.id event_type data :: h.effects.map (TraceEntry.effect h.id),
   if h.raises then Except.error "handler error" else Except.ok ())

/-- The `for handler in handlers` loop of `EventBus.emit`: every call sits
in a `try`/`except` that logs the error and continues with the next
handler; each call is awaited to completion before the next begins. -/
def emitLoop (event_type : EventType) (data : String) : List Handler → List TraceEntry
  | [] => []
  | h :: rest =>
    let c := callHandler h event_type data
    c.1 ++
      (match c.2 with
       | Except.ok _ => emitLoop event_type data rest
       | Except.error _ => TraceEntry.caught h.id :: emitLoop event_type data rest)

/-- Method `EventBus.emit(event_type, **data)`: run the specific-kind handlers
(copied) followed by the wildcard handlers (copied). -/
def EventBus.emit (b : EventBus) (event_type : EventType) (data : String) :
    List TraceEntry :=
  emitLoop event_type data (getHandlers b.handlers event_type ++ b.wildcard_handlers)

/-- The ids of the handlers a trace shows were invoked, in order. -/
def invokedIds (tr : List TraceEntry) : List Nat :=
  tr.filterMap fun e =>
    match e with
    | TraceEntry.invoked i _ _ => some i
    | _ => none

/-- The full trace one handler contributes to an emission: its call,
followed by `emit` catching its exception when it raises. -/
def handlerTrace (h : Handler) (event_type : EventType) (data : String) : List TraceEntry :=
  (callHandler h event_type data).1 ++
    (if h.raises then [TraceEntry.caught h.id] else [])

/-! Lemmas about the dict model. -/

@[simp] theorem dictKeys_nil : dictKeys [] = [] := rfl

@[simp] theorem dictKeys_cons (a b : String) (t : List (String × String)) :
    dictKeys ((a, b) :: t) = a :: dictKeys t := rfl

theorem dictLookup_isSome_iff (d : List (String × String)) (k : String) :
    (dictLookup d k).isSome = true ↔ k ∈ dictKeys d := by
  induction d with
  | nil => simp [dictLookup]
  | cons hd t ih =>
    obtain ⟨a, b⟩ := hd
    by_cases h : a = k
    · simp [dictLookup, h]
    · simp only [dictLookup, if_neg h, ih, dictKeys_cons, List.mem_cons]
      constructor
      · exact Or.inr
      · rintro (he | hm)
        · exact absurd he.symm h
        · exact hm

theorem dictContains_iff (d : List (String × String)) (k : String) :
    dictContains d k = true ↔ k ∈ dictKeys d := by
  rw [dictContains, dictLookup_isSome_iff]

theorem dictLookup_eq_none_of_not_mem {d : List (String × String)} {k : String}
    (h : k ∉ dictKeys d) : dictLookup d k = none := by
  have := (dictLookup_isSome_iff d k).not.mpr h
  cases hl : dictLookup d k with
  | none => rfl
  | some v => exact absurd (by simp [hl]) this

theorem dictLookup_isSome_of_mem {d : List (String × String)} {k : String}
    (h : k ∈ dictKeys d) : (dictLookup d k).isSome = true :=
  (dictLookup_isSome_iff d k).mpr h

theorem dictKeys_dictInsert_of_mem {d : List (String × String)} {k : String} (v : String)
    (h : k ∈ dictKeys d) : dictKeys (dictInsert d k v) = dictKeys d := by
  induction d with
  | nil => simp at h
  | cons hd t ih =>
    obtain ⟨a, b⟩ := hd
    by_cases hak : a = k
    · simp [dictInsert, hak]
    · have hk : k ∈ dictKeys t := by
        rcases (List.mem_cons.mp (by simpa using h)) with h1 | h1
        · exact absurd h1.symm hak
        · exact h1
      simp [dictInsert, hak, ih hk]

theorem dictKeys_dictInsert_of_not_mem {d : List (String × String)} {k : String} (v : String)
    (h : k ∉ dictKeys d) : dictKeys (dictInsert d k v) = dictKeys d ++ [k] := by
  induction d with
  | nil => simp [dictInsert]
  | cons hd t ih =>
    obtain ⟨a, b⟩ := hd
    have hak : a ≠ k := by
      rintro rfl
      exact h (by simp)
    have hk : k ∉ dictKeys t := fun hm => h (by simp [hm])
    simp [dictInsert, hak, ih hk]

theorem dictKeys_dictErase (d : List (String × String)) (k : String) :
    dictKeys (dictErase d k) = (dictKeys d).erase k := by
  induction d with
  | nil => simp [dictErase]
  | cons hd t ih =>
    obtain ⟨a, b⟩ := hd
    by_cases hak : a = k
    · simp [dictErase, hak, List.erase_cons]
    · simp [dictErase, hak, List.erase_cons, ih]

theorem dictLookup_dictInsert_self (d : List (String × String)) (k v : String) :
    dictLookup (dictInsert d k v) k = some v := by
  induction d with
  | nil => simp [dictInsert, dictLookup]
  | cons hd t ih =>
    obtain ⟨a, b⟩ := hd
    by_cases hak : a = k <;> simp [dictInsert, dictLookup, hak, ih]

theorem dictLookup_dictInsert_of_ne {k k2 : String} (d : List (String × String)) (v : String)
    (h : k2 ≠ k) : dictLookup (dictInsert d k v) k2 = dictLookup d k2 := by
  induction d with
  | nil => simp [dictInsert, dictLookup, Ne.symm h]
  | cons hd t ih =>
    obtain ⟨a, b⟩ := hd
    by_cases hak : a = k
    · subst hak
      simp [dictInsert, dictLookup, Ne.symm h]
    · by_cases hak2 : a = k2
      · subst hak2
        simp [dictInsert, dictLookup, hak]
      · simp [dictInsert, dictLookup, hak, hak2, ih]

theorem dictLookup_dictErase_of_ne {k k2 : String} (d : List (String × String))
    (h : k2 ≠ k) : dictLookup (dictErase d k) k2 = dictLookup d k2 := by
  induction d with
  | nil => simp [dictErase]
  | cons hd t ih =>
    obtain ⟨a, b⟩ := hd
    by_cases hak : a = k
    · subst hak
      simp [dictErase, dictLookup, Ne.symm h]
    · by_cases hak2 : a = k2
      · subst hak2
        simp [dictErase, dictLookup, hak]
      · simp [dictErase, dictLookup, hak, hak2, ih]

theorem dictLookup_dictErase_self {d : List (String × String)} {k : String}
    (h : (dictKeys d).Nodup) : dictLookup (dictErase d k) k = none := by
  induction d with
  | nil => simp [dictErase, dictLookup]
  | cons hd t ih =>
    obtain ⟨a, b⟩ := hd
    rw [dictKeys, List.map_cons, List.nodup_cons] at h
    by_cases hak : a = k
    · subst hak
      simp only [dictErase, if_pos rfl]
      exact dictLookup_eq_none_of_not_mem h.1
    · simp [dictErase, dictLookup, hak, ih h.2]

theorem dictKeys_length (d : List (String × String)) :
    (dictKeys d).length = d.length := by
  simp [dictKeys]

theorem length_dictInsert_of_mem {d : List (String × String)} {k : String} (v : String)
    (h : k ∈ dictKeys d) : (dictInsert d k v).length = d.length := by
  rw [← dictKeys_length, dictKeys_dictInsert_of_mem v h, dictKeys_length]

theorem length_dictInsert_of_not_mem {d : List (String × String)} {k : String} (v : String)
    (h : k ∉ dictKeys d) : (dictInsert d k v).length = d.length + 1 := by
  rw [← dictKeys_length, dictKeys_dictInsert_of_not_mem v h, List.length_append,
    dictKeys_length]
  rfl

theorem length_dictErase_of_mem {d : List (String × String)} {k : String}
    (h : k ∈ dictKeys d) : (dictErase d k).length = d.length - 1 := by
  rw [← dictKeys_length, dictKeys_dictErase, List.length_erase_of_mem h, dictKeys_length]

/-! Well-formedness of a TextToSpeech state.

`cache_order` lists exactly the keys of `cache`, each exactly once: it is a
duplicate-free permutation of the key list. -/

def WF (s : TTSState) : Prop :=
  s.cache_order.Nodup ∧ s.cache_order.Perm (dictKeys s.cache)

instance (s : TTSState) : Decidable (WF s) := by
  unfold WF
  infer_instance

theorem WF.order_nodup {s : TTSState} (h : WF s) : s.cache_order.Nodup := h.1

theorem WF.perm {s : TTSState} (h : WF s) : s.cache_order.Perm (dictKeys s.cache) := h.2

theorem WF.keys_nodup {s : TTSState} (h : WF s) : (dictKeys s.cache).Nodup :=
  h.perm.nodup_iff.mp h.order_nodup

theorem WF.mem_iff {s : TTSState} (h : WF s) (k : String) :
    k ∈ s.cache_order ↔ k ∈ dictKeys s.cache :=
  h.perm.mem_iff

theorem nodup_append_singleton {α : Type} {l : List α} {a : α}
    (h : l.Nodup) (ha : a ∉ l) : (l ++ [a]).Nodup :=
  (List.perm_append_singleton a l).nodup_iff.mpr (List.nodup_cons.mpr ⟨ha, h⟩)

/-! Closed forms of `updateCache` in its four control-flow cases. -/

theorem updateCache_refresh {s : TTSState} (fs : List String) {text : String}
    (file_path : String) (hc : dictContains s.cache text = true) :
    updateCache s fs text file_path =
      (⟨dictInsert s.cache text file_path, s.cache_size,
        s.cache_order.erase text ++ [text]⟩, fs) := by
  obtain ⟨c, n, o⟩ := s
  simp [updateCache, touchOrEvict, hc]

theorem updateCache_first {s : TTSState} (fs : List String) {text : String}
    (file_path : String) (hc : dictContains s.cache text = false)
    (ho : s.cache_order = []) :
    updateCache s fs text file_path =
      (⟨dictInsert s.cache text file_path, s.cache_size, [text]⟩, fs) := by
  obtain ⟨c, n, o⟩ := s
  subst ho
  simp [updateCache, touchOrEvict, hc]

theorem updateCache_evict {s : TTSState} (fs : List String) {text : String}
    (file_path : String) {oldest : String} {rest : List String}
    (hc : dictContains s.cache text = false)
    (ho : s.cache_order = oldest :: rest)
    (hlen : s.cache_size ≤ s.cache.length) :
    updateCache s fs text file_path =
      (⟨dictInsert (dictErase s.cache oldest) text file_path, s.cache_size,
        rest ++ [text]⟩,
       match dictLookup s.cache oldest with
       | some oldest_path =>
         if oldest_path ∈ fs ∧ oldest_path ≠ file_path then fs.erase oldest_path
         else fs
       | none => fs) := by
  obtain ⟨c, n, o⟩ := s
  subst ho
  simp only at hc hlen
  simp [updateCache, touchOrEvict, hc, hlen]

theorem updateCache_room {s : TTSState} (fs : List String) {text : String}
    (file_path : String) {oldest : String} {rest : List String}
    (hc : dictContains s.cache text = false)
    (ho : s.cache_order = oldest :: rest)
    (hlen : ¬ s.cache_size ≤ s.cache.length) :
    updateCache s fs text file_path =
      (⟨dictInsert s.cache text file_path, s.cache_size,
        s.cache_order ++ [text]⟩, fs) := by
  obtain ⟨c, n, o⟩ := s
  subst ho
  simp only at hc hlen
  simp [updateCache, touchOrEvict, hc, hlen]

theorem not_mem_keys_of_not_contains {s : TTSState} {text : String}
    (hc : dictContains s.cache text = false) : text ∉ dictKeys s.cache := by
  intro hm
  rw [(dictContains_iff s.cache text).mpr hm] at hc
  exact Bool.noConfusion hc

/-- Insertion via `_update_cache` preserves well-formedness. -/
theorem WF_updateCache {s : TTSState} (fs : List String) (text file_path : String)
    (h : WF s) : WF (updateCache s fs text file_path).1 := by
  obtain ⟨hnd, hperm⟩ := h
  by_cases hc : dictContains s.cache text = true
  · have hmem : text ∈ dictKeys s.cache := (dictContains_iff _ _).mp hc
    have hord : text ∈ s.cache_order := hperm.mem_iff.mpr hmem
    rw [updateCache_refresh fs file_path hc]
    refine ⟨?_, ?_⟩
    · exact nodup_append_singleton (hnd.erase text)
        (fun hm => ((hnd.mem_erase_iff).mp hm).1 rfl)
    · show (s.cache_order.erase text ++ [text]).Perm
        (dictKeys (dictInsert s.cache text file_path))
      rw [dictKeys_dictInsert_of_mem file_path hmem]
      exact (List.perm_append_singleton _ _).trans
        ((List.perm_cons_erase hord).symm.trans hperm)
  · have hc' : dictContains s.cache text = false := by
      cases hb : dictContains s.cache text
      · rfl
      · exact absurd hb hc
    have hnotmem : text ∉ dictKeys s.cache := not_mem_keys_of_not_contains hc'
    have hnotord : text ∉ s.cache_order := fun hm => hnotmem (hperm.mem_iff.mp hm)
    cases ho : s.cache_order with
    | nil =>
      have hkeys : dictKeys s.cache = [] := by
        rw [ho] at hperm
        exact hperm.symm.eq_nil
      rw [updateCache_first fs file_path hc' ho]
      refine ⟨List.nodup_singleton text, ?_⟩
      rw [dictKeys_dictInsert_of_not_mem file_path hnotmem, hkeys]
      rfl
    | cons oldest rest =>
      have hoe : oldest ∈ s.cache_order := by rw [ho]; exact List.mem_cons_self _ _
      have hok : oldest ∈ dictKeys s.cache := hperm.mem_iff.mp hoe
      have hrest_nd : rest.Nodup := by
        rw [ho] at hnd
        exact (List.nodup_cons.mp hnd).2
      have htext_rest : text ∉ rest := fun hm => hnotord (by rw [ho]; exact List.mem_cons_of_mem _ hm)
      by_cases hlen : s.cache_size ≤ s.cache.length
      · rw [updateCache_evict fs file_path hc' ho hlen]
        have hrest_perm : rest.Perm ((dictKeys s.cache).erase oldest) := by
          have := hperm.erase oldest
          rw [ho, List.erase_cons_head] at this
          exact this
        have hnotmem_erase : text ∉ (dictKeys s.cache).erase oldest :=
          fun hm => hnotmem (List.mem_of_mem_erase hm)
        refine ⟨nodup_append_singleton hrest_nd htext_rest, ?_⟩
        show (rest ++ [text]).Perm
          (dictKeys (dictInsert (dictErase s.cache oldest) text file_path))
        rw [dictKeys_dictInsert_of_not_mem file_path
            (by rw [dictKeys_dictErase]; exact hnotmem_erase),
          dictKeys_dictErase]
        exact hrest_perm.append_right [text]
      · rw [updateCache_room fs file_path hc' ho hlen]
        refine ⟨nodup_append_singleton hnd hnotord, ?_⟩
        show (s.cache_order ++ [text]).Perm
          (dictKeys (dictInsert s.cache text file_path))
        rw [dictKeys_dictInsert_of_not_mem file_path hnotmem]
        exact hperm.append_right [text]

/-- A playback-failure invalidation preserves well-formedness. -/
theorem WF_invalidate {s : TTSState} (text : String)
    (h : WF s) : WF (invalidateOnPlaybackFailure s text) := by
  obtain ⟨hnd, hperm⟩ := h
  unfold invalidateOnPlaybackFailure
  by_cases hc : dictContains s.cache text = true
  · have hmem : text ∈ dictKeys s.cache := (dictContains_iff _ _).mp hc
    have hord : text ∈ s.cache_order := hperm.mem_iff.mpr hmem
    rw [if_pos hc, if_pos hord]
    exact ⟨hnd.erase text, by rw [dictKeys_dictErase]; exact hperm.erase text⟩
  · rw [if_neg hc]
    exact ⟨hnd, hperm⟩

/-- Calling `speak` preserves well-formedness of the cache state. -/
theorem WF_speak (pathOf : String → String) (playFails : Bool)
    {s : TTSState} (fs : List String) (text : String)
    (h : WF s) : WF (speak pathOf playFails s fs text).state := by
  obtain ⟨hnd, hperm⟩ := h
  unfold speak
  simp only
  set filtered_text := remove_special_characters text with hft
  have hmid :
      ∀ mid : SpeakResult, WF mid.state →
        WF ((if playFails then
              { mid with state := invalidateOnPlaybackFailure mid.state filtered_text }
             else mid)).state := by
    intro mid hwf
    cases playFails
    · simpa using hwf
    · simp only [if_pos rfl]
      exact WF_invalidate filtered_text hwf
  apply hmid
  cases hl : dictLookup s.cache filtered_text with
  | none =>
    simp only
    exact WF_updateCache _ filtered_text _ ⟨hnd, hperm⟩
  | some cached_path =>
    by_cases hex : cached_path ∈ fs
    · simp only [if_pos hex]
      have hmem : filtered_text ∈ dictKeys s.cache :=
        (dictLookup_isSome_iff _ _).mp (by rw [hl]; rfl)
      have hord : filtered_text ∈ s.cache_order := hperm.mem_iff.mpr hmem
      refine ⟨nodup_append_singleton (hnd.erase filtered_text)
        (fun hm => ((hnd.mem_erase_iff).mp hm).1 rfl), ?_⟩
      exact (List.perm_append_singleton _ _).trans
        ((List.perm_cons_erase hord).symm.trans hperm)
    · simp only [if_neg hex]
      exact WF_updateCache _ filtered_text _ ⟨hnd, hperm⟩

/-! Size bounds and constancy of the capacity field. -/

theorem cache_size_updateCache (s : TTSState) (fs : List String) (text file_path : String) :
    (updateCache s fs text file_path).1.cache_size = s.cache_size := by
  cases hc : dictContains s.cache text with
  | true => rw [updateCache_refresh fs file_path hc]
  | false =>
    cases ho : s.cache_order with
    | nil => rw [updateCache_first fs file_path hc ho]
    | cons oldest rest =>
      by_cases hl : s.cache_size ≤ s.cache.length
      · rw [updateCache_evict fs file_path hc ho hl]
      · rw [updateCache_room fs file_path hc ho hl]

theorem cache_size_invalidate (s : TTSState) (text : String) :
    (invalidateOnPlaybackFailure s text).cache_size = s.cache_size := by
  unfold invalidateOnPlaybackFailure
  split <;> rfl

theorem length_invalidate_le (s : TTSState) (text : String) :
    (invalidateOnPlaybackFailure s text).cache.length ≤ s.cache.length := by
  unfold invalidateOnPlaybackFailure
  split
  · rename_i hc
    have hm : text ∈ dictKeys s.cache := (dictContains_iff _ _).mp hc
    show (dictErase s.cache text).length ≤ s.cache.length
    rw [length_dictErase_of_mem hm]
    omega
  · exact le_refl _

theorem cache_size_speak (pathOf : String → String) (playFails : Bool)
    (s : TTSState) (fs : List String) (text : String) :
    (speak pathOf playFails s fs text).state.cache_size = s.cache_size := by
  unfold speak
  simp only
  set filtered_text := remove_special_characters text
  have hmid : ∀ mid : SpeakResult, mid.state.cache_size = s.cache_size →
      ((if playFails then
          { mid with state := invalidateOnPlaybackFailure mid.state filtered_text }
        else mid)).state.cache_size = s.cache_size := by
    intro mid hm
    cases playFails
    · simpa using hm
    · show (invalidateOnPlaybackFailure mid.state filtered_text).cache_size = s.cache_size
      rw [cache_size_invalidate]
      exact hm
  apply hmid
  cases hl : dictLookup s.cache filtered_text with
  | none =>
    simp only
    rw [cache_size_updateCache]
  | some cached_path =>
    by_cases hex : cached_path ∈ fs
    · simp only [if_pos hex]
    · simp only [if_neg hex]
      rw [cache_size_updateCache]

/-- After any insertion into a well-formed state of positive capacity whose
cache is within its bound, the cache is still within its bound. -/
theorem length_updateCache_le {s : TTSState} (fs : List String) (text file_path : String)
    (h : WF s) (hpos : 0 < s.cache_size) (hlen : s.cache.length ≤ s.cache_size) :
    (updateCache s fs text file_path).1.cache.length ≤ s.cache_size := by
  cases hc : dictContains s.cache text with
  | true =>
    rw [updateCache_refresh fs file_path hc]
    show (dictInsert s.cache text file_path).length ≤ s.cache_size
    rw [length_dictInsert_of_mem file_path ((dictContains_iff _ _).mp hc)]
    exact hlen
  | false =>
    have hnotmem : text ∉ dictKeys s.cache := not_mem_keys_of_not_contains hc
    cases ho : s.cache_order with
    | nil =>
      have hkeys : dictKeys s.cache = [] := by
        have hp := h.perm
        rw [ho] at hp
        exact hp.symm.eq_nil
      have hzero : s.cache.length = 0 := by
        rw [← dictKeys_length, hkeys]
        rfl
      rw [updateCache_first fs file_path hc ho]
      show (dictInsert s.cache text file_path).length ≤ s.cache_size
      rw [length_dictInsert_of_not_mem file_path hnotmem]
      omega
    | cons oldest rest =>
      by_cases hl : s.cache_size ≤ s.cache.length
      · rw [updateCache_evict fs file_path hc ho hl]
        have hok : oldest ∈ dictKeys s.cache := by
          refine (h.mem_iff oldest).mp ?_
          rw [ho]
          exact List.mem_cons_self _ _
        have hcpos : 0 < s.cache.length := by
          rw [← dictKeys_length]
          exact List.length_pos.mpr (fun he => by simp [he] at hok)
        show (dictInsert (dictErase s.cache oldest) text file_path).length ≤ s.cache_size
        rw [length_dictInsert_of_not_mem file_path
            (by rw [dictKeys_dictErase]; exact fun hm => hnotmem (List.mem_of_mem_erase hm)),
          length_dictErase_of_mem hok]
        omega
      · rw [updateCache_room fs file_path hc ho hl]
        show (dictInsert s.cache text file_path).length ≤ s.cache_size
        rw [length_dictInsert_of_not_mem file_path hnotmem]
        omega

theorem length_speak_le (pathOf : String → String) (playFails : Bool)
    {s : TTSState} (fs : List String) (text : String)
    (h : WF s) (hpos : 0 < s.cache_size) (hlen : s.cache.length ≤ s.cache_size) :
    (speak pathOf playFails s fs text).state.cache.length ≤ s.cache_size := by
  unfold speak
  simp only
  set filtered_text := remove_special_characters text
  have hmid : ∀ mid : SpeakResult, mid.state.cache.length ≤ s.cache_size →
      ((if playFails then
          { mid with state := invalidateOnPlaybackFailure mid.state filtered_text }
        else mid)).state.cache.length ≤ s.cache_size := by
    intro mid hm
    cases playFails
    · simpa using hm
    · simp only [if_pos rfl]
      exact le_trans (length_invalidate_le mid.state filtered_text) hm
  apply hmid
  cases hl : dictLookup s.cache filtered_text with
  | none =>
    simp only
    exact length_updateCache_le _ filtered_text _ h hpos hlen
  | some cached_path =>
    by_cases hex : cached_path ∈ fs
    · simp only [if_pos hex]
      exact hlen
    · simp only [if_neg hex]
      exact length_updateCache_le _ filtered_text _ h hpos hlen

/-! Invariants over whole operation histories. -/

theorem runOp_inv (pathOf : String → String) {s : TTSState} (fs : List String)
    (op : TTSOp) (h : WF s) (hpos : 0 < s.cache_size)
    (hlen : s.cache.length ≤ s.cache_size) :
    WF (runOp pathOf s fs op).1 ∧
      (runOp pathOf s fs op).1.cache_size = s.cache_size ∧
      (runOp pathOf s fs op).1.cache.length ≤ s.cache_size := by
  cases op with
  | speakOp text pf =>
    exact ⟨WF_speak pathOf pf fs text h, cache_size_speak pathOf pf s fs text,
      length_speak_le pathOf pf fs text h hpos hlen⟩
  | updateOp text file_path =>
    exact ⟨WF_updateCache fs text file_path h, cache_size_updateCache s fs text file_path,
      length_updateCache_le fs text file_path h hpos hlen⟩

theorem runOp_WF (pathOf : String → String) {s : TTSState} (fs : List String)
    (op : TTSOp) (h : WF s) : WF (runOp pathOf s fs op).1 := by
  cases op with
  | speakOp text pf => exact WF_speak pathOf pf fs text h
  | updateOp text file_path => exact WF_updateCache fs text file_path h

theorem runOps_inv (pathOf : String → String) (ops : List TTSOp) :
    ∀ (s : TTSState) (fs : List String), WF s → 0 < s.cache_size →
      s.cache.length ≤ s.cache_size →
      WF (runOps pathOf s fs ops).1 ∧
        (runOps pathOf s fs ops).1.cache_size = s.cache_size ∧
        (runOps pathOf s fs ops).1.cache.length ≤ s.cache_size := by
  induction ops with
  | nil => exact fun s fs h hpos hlen => ⟨h, rfl, hlen⟩
  | cons op rest ih =>
    intro s fs h hpos hlen
    obtain ⟨h1, h2, h3⟩ := runOp_inv pathOf fs op h hpos hlen
    have hrec := ih (runOp pathOf s fs op).1 (runOp pathOf s fs op).2 h1
      (by rw [h2]; exact hpos) (by rw [h2]; exact h3)
    simp only [runOps]
    exact ⟨hrec.1, hrec.2.1.trans h2, le_trans hrec.2.2 (le_of_eq h2)⟩

theorem runOps_WF (pathOf : String → String) (ops : List TTSOp) :
    ∀ (s : TTSState) (fs : List String), WF s → WF (runOps pathOf s fs ops).1 := by
  induction ops with
  | nil => exact fun s fs h => h
  | cons op rest ih =>
    intro s fs h
    exact ih _ _ (runOp_WF pathOf fs op h)

theorem WF_initState (n : Nat) : WF (initState n) :=
  ⟨List.nodup_nil, List.Perm.refl _⟩

/-! Lemmas about the event bus. -/

theorem handlerTrace_def (h : Handler) (et : EventType) (d : String) :
    handlerTrace h et d =
      TraceEntry.invoked h.id et d ::
        (h.effects.map (TraceEntry.effect h.id) ++
          (if h.raises then [TraceEntry.caught h.id] else [])) := rfl

/-- The emission loop is the concatenation of the complete per-handler
traces, in handler order: each handler runs to completion (and has its
exception caught) before the next one starts. -/
theorem emitLoop_eq_join (et : EventType) (d : String) (hs : List Handler) :
    emitLoop et d hs = (hs.map (fun h => handlerTrace h et d)).flatten := by
  induction hs with
  | nil => rfl
  | cons h rest ih =>
    cases hr : h.raises <;>
      simp [emitLoop, callHandler, handlerTrace, hr, ih]

theorem invokedIds_append (l1 l2 : List TraceEntry) :
    invokedIds (l1 ++ l2) = invokedIds l1 ++ invokedIds l2 :=
  List.filterMap_append l1 l2 _

theorem invokedIds_handlerTrace (h : Handler) (et : EventType) (d : String) :
    invokedIds (handlerTrace h et d) = [h.id] := by
  have heff : ∀ l : List Nat, invokedIds (l.map (TraceEntry.effect h.id)) = [] := by
    intro l
    induction l with
    | nil => rfl
    | cons a t iht => simp only [invokedIds, List.map_cons, List.filterMap_cons] at iht ⊢; exact iht
  rw [handlerTrace_def]
  cases hr : h.raises <;>
    simp [invokedIds, List.filterMap_cons, invokedIds_append, heff]

/-- Every handler in the combined handler list is invoked exactly where it
stands, no matter which handlers raise. -/
theorem invokedIds_emit (b : EventBus) (et : EventType) (d : String) :
    invokedIds (EventBus.emit b et d) =
      (getHandlers b.handlers et ++ b.wildcard_handlers).map Handler.id := by
  unfold EventBus.emit
  rw [emitLoop_eq_join]
  generalize getHandlers b.handlers et ++ b.wildcard_handlers = hs
  induction hs with
  | nil => rfl
  | cons h rest ih =>
    simp [invokedIds_append, invokedIds_handlerTrace, ih]

theorem getHandlers_setHandlers_self (l : List (EventType × List Handler))
    (et : EventType) (hs : List Handler) :
    getHandlers (setHandlers l et hs) et = hs := by
  induction l with
  | nil => simp [setHandlers, getHandlers]
  | cons p t ih =>
    obtain ⟨k, old⟩ := p
    by_cases hk : k = et <;> simp [setHandlers, getHandlers, hk, ih]

theorem on_handlers_of_not_mem {b : EventBus} {et : EventType} {h : Handler}
    (hm : h ∉ getHandlers b.handlers et) :
    getHandlers ((b.on et h).handlers) et = getHandlers b.handlers et ++ [h] := by
  unfold EventBus.on
  rw [if_neg hm]
  exact getHandlers_setHandlers_self _ _ _

theorem on_of_mem {b : EventBus} {et : EventType} {h : Handler}
    (hm : h ∈ getHandlers b.handlers et) : b.on et h = b := by
  unfold EventBus.on
  rw [if_pos hm]

theorem on_wildcard (b : EventBus) (et : EventType) (h : Handler) :
    (b.on et h).wildcard_handlers = b.wildcard_handlers := by
  unfold EventBus.on
  split <;> rfl

theorem on_any_handlers_of_not_mem {b : EventBus} {h : Handler}
    (hm : h ∉ b.wildcard_handlers) :
    (b.on_any h).wildcard_handlers = b.wildcard_handlers ++ [h] := by
  unfold EventBus.on_any
  rw [if_neg hm]

theorem on_idem (b : EventBus) (et : EventType) (h : Handler) :
    (b.on et h).on et h = b.on et h := by
  by_cases hm : h ∈ getHandlers b.handlers et
  · rw [on_of_mem hm, on_of_mem hm]
  · exact on_of_mem (by rw [on_handlers_of_not_mem hm]; simp)

theorem contains_eq_false_of_not_mem {l : List Char} {c : Char} (h : c ∉ l) :
    l.contains c = false := by
  simpa using h

set_option maxRecDepth 4096 in
/-- No character of the denylist is a digit or whitespace. -/
theorem specialChars_no_digit_no_space :
    ∀ c ∈ specialChars, ¬c.isDigit ∧ ¬c.isWhitespace := by
  decide

/-! The claims. -/

/-- Claim C7: the sanitizer removes exactly the characters of its fixed
denylist and preserves every other character verbatim and in original
order, as a pure total function; `sanitize("Hello, world!") = "Hello
world"`, `sanitize("") = ""`, `sanitize("❤♥★") = ""`, a string of only
denylisted characters maps to the empty string, and digits and whitespace
are always preserved. -/
theorem claim_C7 :
    remove_special_characters "Hello, world!" = "Hello world" ∧
    remove_special_characters "" = "" ∧
    remove_special_characters "❤♥★" = "" ∧
    (∀ s : String, (remove_special_characters s).data =
      s.data.filter (fun c => !(specialChars.contains c))) ∧
    (∀ s : String, (∀ c ∈ s.data, c ∈ specialChars) → remove_special_characters s = "") ∧
    (∀ s : String, ((remove_special_characters s).data).Sublist s.data) ∧
    (∀ (s : String) (c : Char), c ∈ s.data → c.isDigit ∨ c.isWhitespace →
      c ∈ (remove_special_characters s).data) := by
  refine ⟨by decide, by decide, by decide, fun s => rfl, ?_, ?_, ?_⟩
  · intro s h
    show String.mk (s.data.filter fun c => !(specialChars.contains c)) = String.mk []
    refine congrArg String.mk (List.filter_eq_nil_iff.mpr ?_)
    intro c hc
    simp [h c hc]
  · intro s
    exact List.filter_sublist s.data
  · intro s c hc hdw
    have hnot : c ∉ specialChars := by
      intro hmem
      rcases hdw with hd | hw
      · exact (specialChars_no_digit_no_space c hmem).1 hd
      · exact (specialChars_no_digit_no_space c hmem).2 hw
    show c ∈ s.data.filter fun c0 => !(specialChars.contains c0)
    refine List.mem_filter.mpr ⟨hc, ?_⟩
    rw [contains_eq_false_of_not_mem hnot]
    rfl

/-- Witness for C7: applying the digit/whitespace-preservation part to a
concrete string. -/
theorem claim_C7_witness :
    '5' ∈ (remove_special_characters "a5 b!").data :=
  claim_C7.2.2.2.2.2.2 "a5 b!" '5' (by decide) (by decide)

/-- Claim C4: every emission invokes every handler of the combined list,
regardless of which handlers raise; an exception is caught inside `emit`
(which returns a plain trace, never an exception) and a second,
independently-subscribed handler for the same kind still runs after an
earlier handler raises. -/
theorem claim_C4 :
    (∀ (b : EventBus) (et : EventType) (d : String),
      invokedIds (EventBus.emit b et d) =
        (getHandlers b.handlers et ++ b.wildcard_handlers).map Handler.id) ∧
    EventBus.emit
        ((EventBus.empty.on EventType.ERROR ⟨1, [], true⟩).on EventType.ERROR
          ⟨2, [], false⟩)
        EventType.ERROR "boom" =
      [TraceEntry.invoked 1 EventType.ERROR "boom", TraceEntry.caught 1,
        TraceEntry.invoked 2 EventType.ERROR "boom"] :=
  ⟨invokedIds_emit, by decide⟩

/-- Claim C5: subscribing the same handler to the same kind twice is a
no-op for the second call, and such a handler is invoked exactly once per
emission of that kind. -/
theorem claim_C5 :
    (∀ (b : EventBus) (et : EventType) (h : Handler),
      (EventBus.on (EventBus.on b et h) et h) = EventBus.on b et h) ∧
    (∀ (b : EventBus) (et : EventType) (h : Handler) (d : String),
      h ∉ getHandlers b.handlers et →
      h ∉ b.wildcard_handlers →
      (∀ h2, h2 ∈ getHandlers b.handlers et ++ b.wildcard_handlers → h2.id ≠ h.id) →
      (invokedIds
        (EventBus.emit (EventBus.on (EventBus.on b et h) et h) et d)).count h.id = 1) := by
  refine ⟨on_idem, ?_⟩
  intro b et h d hm hw hfresh
  rw [on_idem, invokedIds_emit, on_handlers_of_not_mem hm, on_wildcard]
  rw [List.map_append, List.map_append, List.count_append, List.count_append]
  have h1 : ((getHandlers b.handlers et).map Handler.id).count h.id = 0 :=
    List.count_eq_zero.mpr (by
      intro hmem
      obtain ⟨x, hx, hxe⟩ := List.mem_map.mp hmem
      exact hfresh x (List.mem_append_left _ hx) hxe)
  have h2 : (b.wildcard_handlers.map Handler.id).count h.id = 0 :=
    List.count_eq_zero.mpr (by
      intro hmem
      obtain ⟨x, hx, hxe⟩ := List.mem_map.mp hmem
      exact hfresh x (List.mem_append_right _ hx) hxe)
  simp [h1, h2]

/-- Witness for C5: a fresh handler subscribed twice to an empty bus is
invoked exactly once. -/
theorem claim_C5_witness :
    (invokedIds
      (EventBus.emit
        (EventBus.on (EventBus.on EventBus.empty EventType.ERROR ⟨1, [], false⟩)
          EventType.ERROR ⟨1, [], false⟩)
        EventType.ERROR "x")).count 1 = 1 :=
  claim_C5.2 EventBus.empty EventType.ERROR ⟨1, [], false⟩ "x" (by decide) (by decide)
    (by decide)

/-- Claim C6: an emission is exactly the concatenation of the complete
per-handler traces of the specific-kind handlers in subscription order
followed by the wildcard handlers in subscription order; each handler is
invoked with `(kind, **payload)` and runs to completion (its whole trace
block, exception handling included) before the next handler begins.
Subscription appends at the tail, so list order is subscription order. -/
theorem claim_C6 :
    (∀ (b : EventBus) (et : EventType) (d : String),
      EventBus.emit b et d =
        ((getHandlers b.handlers et ++ b.wildcard_handlers).map
          (fun h => handlerTrace h et d)).flatten) ∧
    (∀ (b : EventBus) (et : EventType) (h : Handler),
      h ∉ getHandlers b.handlers et →
      getHandlers ((EventBus.on b et h).handlers) et = getHandlers b.handlers et ++ [h]) ∧
    (∀ (b : EventBus) (h : Handler),
      h ∉ b.wildcard_handlers →
      (EventBus.on_any b h).wildcard_handlers = b.wildcard_handlers ++ [h]) ∧
    (∀ (h : Handler) (et : EventType) (d : String),
      handlerTrace h et d =
        TraceEntry.invoked h.id et d ::
          (h.effects.map (TraceEntry.effect h.id) ++
            (if h.raises then [TraceEntry.caught h.id] else []))) :=
  ⟨fun b et d => by unfold EventBus.emit; exact emitLoop_eq_join et d _,
   fun _ _ _ hm => on_handlers_of_not_mem hm,
   fun _ _ hm => on_any_handlers_of_not_mem hm,
   handlerTrace_def⟩

/-- Witness for C6: subscribing a fresh handler appends it at the tail of
the subscription-order list. -/
theorem claim_C6_witness :
    getHandlers ((EventBus.on EventBus.empty EventType.TTS_START ⟨7, [3], false⟩).handlers)
        EventType.TTS_START =
      getHandlers EventBus.empty.handlers EventType.TTS_START ++ [⟨7, [3], false⟩] :=
  claim_C6.2.1 EventBus.empty EventType.TTS_START ⟨7, [3], false⟩ (by decide)

/-- Claim C1: for every positive `cache_size` and every sequence of
`speak` / `_update_cache` operations starting from a fresh instance, the
cache mapping holds at most `cache_size` entries after each operation
completes. -/
theorem claim_C1 (pathOf : String → String) {n : Nat} (hn : 0 < n)
    (ops : List TTSOp) (fs0 : List String) :
    ((runOps pathOf (initState n) fs0 ops).1).cache.length ≤ n :=
  (runOps_inv pathOf ops (initState n) fs0 (WF_initState n) hn (Nat.zero_le n)).2.2

/-- Witness for C1: three insertions into a capacity-2 cache leave at most
2 entries. -/
theorem claim_C1_witness :
    ((runOps (fun x => x) (initState 2) []
      [TTSOp.updateOp "a" "pa", TTSOp.updateOp "b" "pb",
        TTSOp.updateOp "c" "pc"]).1).cache.length ≤ 2 :=
  claim_C1 (fun x => x) (by decide) _ _

/-- Claim C2: when an insertion evicts (cache at capacity, inserted text
not already a key), the evicted key is exactly the head of the recency
list — the least-recently-touched key — no other key is evicted, and the
inserted key becomes the most recently used (tail of the recency list). -/
theorem claim_C2 {s : TTSState} (fs : List String) {text : String} (file_path : String)
    (h : WF s) (hc : dictContains s.cache text = false)
    (hlen : s.cache_size ≤ s.cache.length)
    {oldest : String} {rest : List String} (ho : s.cache_order = oldest :: rest) :
    dictContains (updateCache s fs text file_path).1.cache oldest = false ∧
    (∀ k, k ∈ dictKeys s.cache → k ≠ oldest →
      dictContains (updateCache s fs text file_path).1.cache k = true) ∧
    (updateCache s fs text file_path).1.cache_order = rest ++ [text] := by
  have hnotmem : text ∉ dictKeys s.cache := not_mem_keys_of_not_contains hc
  have hok : oldest ∈ dictKeys s.cache := by
    refine (h.mem_iff oldest).mp ?_
    rw [ho]
    exact List.mem_cons_self _ _
  have hot : oldest ≠ text := fun he => hnotmem (he ▸ hok)
  rw [updateCache_evict fs file_path hc ho hlen]
  refine ⟨?_, ?_, rfl⟩
  · show (dictLookup (dictInsert (dictErase s.cache oldest) text file_path) oldest).isSome
      = false
    rw [dictLookup_dictInsert_of_ne _ file_path hot,
      dictLookup_dictErase_self h.keys_nodup]
    rfl
  · intro k hk hko
    have hkt : k ≠ text := fun he => hnotmem (he ▸ hk)
    show (dictLookup (dictInsert (dictErase s.cache oldest) text file_path) k).isSome
      = true
    rw [dictLookup_dictInsert_of_ne _ file_path hkt,
      dictLookup_dictErase_of_ne _ hko]
    exact dictLookup_isSome_of_mem hk

/-- Witness for C2: in a full capacity-1 cache holding only "a", inserting
"b" evicts exactly "a" and leaves recency order ["b"]. -/
theorem claim_C2_witness :
    dictContains (updateCache ⟨[("a", "pa")], 1, ["a"]⟩ [] "b" "pb").1.cache "a"
        = false ∧
    (updateCache ⟨[("a", "pa")], 1, ["a"]⟩ [] "b" "pb").1.cache_order = [] ++ ["b"] := by
  have h := @claim_C2 ⟨[("a", "pa")], 1, ["a"]⟩ [] "b" "pb"
    (by decide) (by decide) (by decide) "a" [] (by decide)
  exact ⟨h.1, h.2.2⟩

/-- Claim C3: when the sanitized text is a cache key whose file still
exists, `speak` performs no synthesis call, plays the cached path, and (on
the success path) moves the key to the most-recently-used tail of the
recency order, leaving the mapping and the file system untouched. -/
theorem claim_C3 (pathOf : String → String) {s : TTSState} {fs : List String}
    {text p : String}
    (hl : dictLookup s.cache (remove_special_characters text) = some p)
    (hex : p ∈ fs) :
    (∀ playFails, (speak pathOf playFails s fs text).synthCalled = false ∧
      (speak pathOf playFails s fs text).playedPath = p) ∧
    (speak pathOf false s fs text).state =
      { s with cache_order :=
          s.cache_order.erase (remove_special_characters text) ++
            [remove_special_characters text] } ∧
    (speak pathOf false s fs text).fs = fs := by
  have base : ∀ pf : Bool, speak pathOf pf s fs text =
      (if pf then
        { state := invalidateOnPlaybackFailure
            { s with cache_order :=
                s.cache_order.erase (remove_special_characters text) ++
                  [remove_special_characters text] }
            (remove_special_characters text),
          fs := fs, synthCalled := false, playedPath := p }
       else
        { state :=
            { s with cache_order :=
                s.cache_order.erase (remove_special_characters text) ++
                  [remove_special_characters text] },
          fs := fs, synthCalled := false, playedPath := p }) := by
    intro pf
    unfold speak
    dsimp only
    rw [hl]
    dsimp only
    rw [if_pos hex]
  refine ⟨?_, ?_, ?_⟩
  · intro pf
    rw [base pf]
    cases pf
    · exact ⟨rfl, rfl⟩
    · exact ⟨rfl, rfl⟩
  · rw [base false]
    rfl
  · rw [base false]
    rfl

/-- Witness for C3: a cache hit on "a" with its file present synthesizes
nothing and leaves the file system unchanged. -/
theorem claim_C3_witness :
    (speak (fun x => x) true ⟨[("a", "pa")], 1, ["a"]⟩ ["pa"] "a").synthCalled
        = false ∧
    (speak (fun x => x) false ⟨[("a", "pa")], 1, ["a"]⟩ ["pa"] "a").fs = ["pa"] := by
  have h := @claim_C3 (fun x => x) ⟨[("a", "pa")], 1, ["a"]⟩ ["pa"] "a" "pa"
    (by decide) (by decide)
  exact ⟨(h.1 true).1, h.2.2⟩

/-- Claim C8: a playback-failure invalidation removes exactly the
offending key from both the mapping and the recency order, leaves every
other entry and its recency position unchanged, and deletes no file (the
failure path of `speak` never changes the file system). -/
theorem claim_C8 {s : TTSState} {text : String} (h : WF s)
    (hc : dictContains s.cache text = true) :
    dictContains (invalidateOnPlaybackFailure s text).cache text = false ∧
    text ∉ (invalidateOnPlaybackFailure s text).cache_order ∧
    (∀ k, k ≠ text →
      dictLookup (invalidateOnPlaybackFailure s text).cache k = dictLookup s.cache k) ∧
    (invalidateOnPlaybackFailure s text).cache_order = s.cache_order.erase text ∧
    (∀ (pathOf : String → String) (fs2 : List String) (t2 : String) (s2 : TTSState),
      (speak pathOf true s2 fs2 t2).fs = (speak pathOf false s2 fs2 t2).fs) := by
  have hmem : text ∈ dictKeys s.cache := (dictContains_iff _ _).mp hc
  have hord : text ∈ s.cache_order := (h.mem_iff text).mpr hmem
  have hinv : invalidateOnPlaybackFailure s text =
      { s with cache := dictErase s.cache text,
               cache_order := s.cache_order.erase text } := by
    unfold invalidateOnPlaybackFailure
    rw [if_pos hc, if_pos hord]
  rw [hinv]
  refine ⟨?_, ?_, ?_, rfl, ?_⟩
  · show (dictLookup (dictErase s.cache text) text).isSome = false
    rw [dictLookup_dictErase_self h.keys_nodup]
    rfl
  · exact fun hm => ((h.order_nodup.mem_erase_iff).mp hm).1 rfl
  · intro k hk
    exact dictLookup_dictErase_of_ne _ hk
  · intro pathOf fs2 t2 s2
    rfl

/-- Witness for C8: invalidating "a" in a two-entry cache removes only
"a"; the lookup of "b" is untouched. -/
theorem claim_C8_witness :
    dictContains
        (invalidateOnPlaybackFailure ⟨[("a", "pa"), ("b", "pb")], 2, ["a", "b"]⟩
          "a").cache "a" = false ∧
    dictLookup
        (invalidateOnPlaybackFailure ⟨[("a", "pa"), ("b", "pb")], 2, ["a", "b"]⟩
          "a").cache "b" =
      dictLookup ((⟨[("a", "pa"), ("b", "pb")], 2, ["a", "b"]⟩ : TTSState)).cache "b" := by
  have h := @claim_C8 ⟨[("a", "pa"), ("b", "pb")], 2, ["a", "b"]⟩ "a"
    (by decide) (by decide)
  exact ⟨h.1, h.2.2.1 "b" (by decide)⟩

/-- Claim C9: an eviction deletes the evicted entry's backing file from
disk, tolerates a missing file silently, and never deletes the file
currently being inserted, even when the evicted entry maps to the
identical path. -/
theorem claim_C9 {s : TTSState} (fs : List String) {text : String} (file_path : String)
    {oldest : String} {rest : List String} {oldest_path : String}
    (hc : dictContains s.cache text = false)
    (ho : s.cache_order = oldest :: rest)
    (hlen : s.cache_size ≤ s.cache.length)
    (hp : dictLookup s.cache oldest = some oldest_path) :
    (updateCache s fs text file_path).2 =
      (if oldest_path ∈ fs ∧ oldest_path ≠ file_path then fs.erase oldest_path
       else fs) ∧
    (oldest_path = file_path → (updateCache s fs text file_path).2 = fs) ∧
    (oldest_path ∉ fs → (updateCache s fs text file_path).2 = fs) ∧
    (file_path ∈ fs → file_path ∈ (updateCache s fs text file_path).2) := by
  have hbase : (updateCache s fs text file_path).2 =
      (if oldest_path ∈ fs ∧ oldest_path ≠ file_path then fs.erase oldest_path
       else fs) := by
    rw [updateCache_evict fs file_path hc ho hlen]
    show (match dictLookup s.cache oldest with
          | some q => if q ∈ fs ∧ q ≠ file_path then fs.erase q else fs
          | none => fs) = _
    rw [hp]
  rw [hbase]
  refine ⟨rfl, ?_, ?_, ?_⟩
  · intro he
    rw [if_neg (fun hand => hand.2 he)]
  · intro hno
    rw [if_neg (fun hand => hno hand.1)]
  · intro hin
    by_cases hcond : oldest_path ∈ fs ∧ oldest_path ≠ file_path
    · rw [if_pos hcond]
      exact (List.mem_erase_of_ne (fun he => hcond.2 he.symm)).mpr hin
    · rw [if_neg hcond]
      exact hin

/-- Witness for C9: evicting "a" (file "pa" on disk) while inserting "b"
at path "pb" erases exactly "pa". -/
theorem claim_C9_witness :
    (updateCache ⟨[("a", "pa")], 1, ["a"]⟩ ["pa"] "b" "pb").2 =
      (if "pa" ∈ ["pa"] ∧ "pa" ≠ "pb" then ["pa"].erase "pa" else ["pa"]) :=
  (@claim_C9 ⟨[("a", "pa")], 1, ["a"]⟩ ["pa"] "b" "pb" "a" [] "pa"
    (by decide) (by decide) (by decide) (by decide)).1

/-- Claim C10: every operation on a `TextToSpeech` instance — a `speak`
call (hit, insertion, eviction, playback-failure invalidation included), a
bare `_update_cache` insertion, and a bare invalidation — preserves the
invariant that `cache_order` is a duplicate-free permutation of the keys
of `cache`; every state reachable from a fresh instance satisfies it. -/
theorem claim_C10 (pathOf : String → String) :
    (∀ (s : TTSState) (fs : List String) (op : TTSOp), WF s →
      WF (runOp pathOf s fs op).1) ∧
    (∀ (s : TTSState) (fs : List String) (text file_path : String), WF s →
      WF (updateCache s fs text file_path).1) ∧
    (∀ (s : TTSState) (text : String), WF s →
      WF (invalidateOnPlaybackFailure s text)) ∧
    (∀ (s : TTSState) (fs : List String) (text : String) (playFails : Bool), WF s →
      WF (speak pathOf playFails s fs text).state) ∧
    (∀ (n : Nat) (fs : List String) (ops : List TTSOp),
      WF (runOps pathOf (initState n) fs ops).1) :=
  ⟨fun _ fs op h => runOp_WF pathOf fs op h,
   fun _ fs text fp h => WF_updateCache fs text fp h,
   fun _ text h => WF_invalidate text h,
   fun _ fs text pf h => WF_speak pathOf pf fs text h,
   fun n fs ops => runOps_WF pathOf ops (initState n) fs (WF_initState n)⟩

/-- Witness for C10: invalidation of "a" in a concrete well-formed state
yields a well-formed state. -/
theorem claim_C10_witness :
    WF (invalidateOnPlaybackFailure ⟨[("a", "pa")], 1, ["a"]⟩ "a") :=
  (claim_C10 (fun x => x)).2.2.1 ⟨[("a", "pa")], 1, ["a"]⟩ "a" (by decide)

end AIVtube
